import Mathlib

/-!
Verification of `update_package.py` against its natural-language specification.

The script is embedded shallowly: strings are modelled as `String` or
`List Char`, the process environment as a function `String → Option String`,
the keyring credential store as an association list, interactive prompts as a
list of input lines consumed in order, and external effects (GitHub
authentication, PyPI upload, the `packaging` version parser, subprocess exit
status) as oracle parameters.  Each definition follows the corresponding
Python function line by line; Python truthiness (`None`, `False`, `""` are
falsy) is made explicit wherever the source relies on it.
-/

namespace UpdatePackage

/-! ### Character classes and Python string primitives -/

/-- The two quote characters admitted by the character class `['\"]`. -/
def isQuoteCh (c : Char) : Bool := c = '\'' || c = '"'

/-- The character class `[\d.]` used in the `version=` patterns. -/
def isDigitDot (c : Char) : Bool := c.isDigit || c = '.'

/-- The character class `[a-zA-Z0-9]` together with `'.'`; every character a
string accepted by the shape check can contain. -/
def isAlnumDot (c : Char) : Bool := c.isAlphanum || c = '.'

/-- ASCII whitespace stripped by Python's `str.strip()`. -/
def isPySpace (c : Char) : Bool :=
  c = ' ' || c = '\t' || c = '\n' || c = '\r' || c = '\x0b' || c = '\x0c'

/-- Python `str.strip()`: remove leading and trailing whitespace. -/
def pyStrip (l : List Char) : List Char :=
  ((l.dropWhile isPySpace).reverse.dropWhile isPySpace).reverse

/-! ### `run_command` (lines 13-19)

`run_command` spawns a subprocess and returns `False` on a non-zero exit
status, otherwise `output.decode('utf-8').strip()`.  The subprocess itself is
external, so the model takes its exit code and captured stdout as inputs;
stderr is only printed by the source and is omitted. -/

/-- The Python value returned by `run_command`: either the sentinel `False`
or the stripped stdout string. -/
inductive RunResult
  | failure
  | output (s : List Char)
deriving DecidableEq

/-- Model of `run_command` (lines 13-19): `False` when the subprocess exited
non-zero, otherwise stripped stdout. -/
def run_command (exitCode : Nat) (stdout : List Char) : RunResult :=
  if exitCode ≠ 0 then .failure else .output (pyStrip stdout)

/-- Python truthiness of the value returned by `run_command`: `False` is
falsy, and so is an empty string. -/
def pyFalsyRun : RunResult → Bool
  | .failure => true
  | .output s => s.isEmpty

/-! ### Credential store and broker (lines 21-28)

The keyring is an association list keyed by `(service, credential_type)`;
`keyring.set_password` overwrites, `keyring.delete_password` removes the
entry.  Interactive input is a list of answer lines consumed in order (a
missing answer reads as `""`). -/

/-- The secure local credential store, keyed by (service, credential type). -/
abbrev Store := List ((String × String) × String)

/-- Model of `keyring.get_password service ctype`. -/
def lookupStore (st : Store) (service ctype : String) : Option String :=
  (st.find? (fun e => e.1.1 == service && e.1.2 == ctype)).map (·.2)

/-- Model of `keyring.delete_password service ctype` (removal of the
entry; the store is external to the repository). -/
def deleteStore (st : Store) (service ctype : String) : Store :=
  st.filter (fun e => !(e.1.1 == service && e.1.2 == ctype))

/-- Model of `keyring.set_password service ctype v`: overwrite the stored value. -/
def setStore (st : Store) (service ctype v : String) : Store :=
  ((service, ctype), v) :: deleteStore st service ctype

/-- Python `answer.lower().strip() == 'y'` (line 25). -/
def normYes (s : String) : Bool :=
  String.mk (pyStrip s.toLower.toList) == "y"

/-- Model of `get_or_set_credential` (lines 21-28): consult the store; a
missing or empty stored value is falsy, so the user is prompted (consuming
one input line for the credential and one for the save question).  Returns
the credential together with the updated store and remaining input. -/
def get_or_set_credential (service ctype : String) (st : Store)
    (inputs : List String) : String × Store × List String :=
  match lookupStore st service ctype with
  | some v =>
    if v ≠ "" then (v, st, inputs)
    else
      let cred := inputs.headD ""
      let save := (inputs.drop 1).headD ""
      (cred, if normYes save then setStore st service ctype cred else st,
        inputs.drop 2)
  | none =>
    let cred := inputs.headD ""
    let save := (inputs.drop 1).headD ""
    (cred, if normYes save then setStore st service ctype cred else st,
      inputs.drop 2)

/-- The resolution pattern `os.environ.get(ENV) or get_or_set_credential(...)`
used at lines 32, 85 and 86: a set-and-non-empty environment variable wins
(Python `or` discards falsy values, so `None` and `""` both fall through),
otherwise the broker is consulted. -/
def resolveCred (env : String → Option String) (envName service ctype : String)
    (st : Store) (inputs : List String) : String × Store × List String :=
  match env envName with
  | some v =>
    if v ≠ "" then (v, st, inputs)
    else get_or_set_credential service ctype st inputs
  | none => get_or_set_credential service ctype st inputs

/-- The three (environment variable, service, kind) triples the program
resolves: lines 32, 85, 86. -/
def credTriples : List (String × String × String) :=
  [("GITHUB_TOKEN", "github", "token"),
   ("PYPI_USERNAME", "pypi", "username"),
   ("PYPI_PASSWORD", "pypi", "token")]

/-! ### `github_login` (lines 30-45)

GitHub authentication is external: the oracle `authOk` says whether a token
authenticates (`Github(token).get_user()` succeeding vs raising
`GithubException`).  The returned "session" is identified with its token.
The `for attempt in range(max_attempts)` loop is modelled by recursion on the
number of remaining iterations; falling off the end of the loop returns
Python `None`, modelled by `fellThrough`. -/

/-- Result of `github_login`: a session (its token), `sys.exit(code)`, or
falling off the `for` loop (Python returns `None`). -/
inductive GLOutcome
  | ok (token : String) (st : Store) (inputs : List String)
  | exited (code : Nat) (st : Store) (inputs : List String)
  | fellThrough (st : Store) (inputs : List String)
deriving DecidableEq

/-- Model of `github_login` (lines 30-45), by recursion on the remaining
loop iterations (initially `max_attempts`).  Each attempt resolves the token
(line 32), tries to authenticate, and on failure deletes the stored token
(line 40); the last attempt exits with status 1 (line 45). -/
def github_login (authOk : String → Bool) (env : String → Option String) :
    Nat → Store → List String → GLOutcome
  | 0, st, inp => .fellThrough st inp
  | r + 1, st, inp =>
    let res := resolveCred env "GITHUB_TOKEN" "github" "token" st inp
    if authOk res.1 then .ok res.1 res.2.1 res.2.2
    else
      let st2 := deleteStore res.2.1 "github" "token"
      if r = 0 then .exited 1 st2 res.2.2
      else github_login authOk env r st2 res.2.2

/-- Number of loop iterations `github_login` actually executes. -/
def github_login_attempts (authOk : String → Bool)
    (env : String → Option String) : Nat → Store → List String → Nat
  | 0, _, _ => 0
  | r + 1, st, inp =>
    let res := resolveCred env "GITHUB_TOKEN" "github" "token" st inp
    if authOk res.1 then 1
    else if r = 0 then 1
    else 1 + github_login_attempts authOk env r
      (deleteStore res.2.1 "github" "token") res.2.2

/-! ### `upload_to_pypi` (lines 83-106)

The twine upload is external: `uploadOk username password` says whether
`upload(settings, dist_files)` succeeds for the resolved credentials.  The
function returns Python `True`, `False`, or `None` (falling off the loop),
modelled as `Option Bool`; `None` and `False` are both falsy. -/

/-- Model of `upload_to_pypi` (lines 83-106): per attempt, resolve username
then token (lines 85-86), try the upload; on failure delete both stored
credentials (lines 100-101); the last attempt returns `False` (line 106);
`max_attempts = 0` falls off the loop returning `None`. -/
def upload_to_pypi (uploadOk : String → String → Bool)
    (env : String → Option String) :
    Nat → Store → List String → Option Bool × Store × List String
  | 0, st, inp => (none, st, inp)
  | r + 1, st, inp =>
    let ru := resolveCred env "PYPI_USERNAME" "pypi" "username" st inp
    let rp := resolveCred env "PYPI_PASSWORD" "pypi" "token" ru.2.1 ru.2.2
    if uploadOk ru.1 rp.1 then (some true, rp.2.1, rp.2.2)
    else
      let st3 := deleteStore (deleteStore rp.2.1 "pypi" "username")
        "pypi" "token"
      if r = 0 then (some false, st3, rp.2.2)
      else upload_to_pypi uploadOk env r st3 rp.2.2

/-- Python truthiness of the `upload_to_pypi` return value: only `True` is
truthy (`False` and `None` are falsy). -/
def pyTruthyOptB : Option Bool → Bool
  | some true => true
  | _ => false

/-! ### `ensure_github_remote` (lines 47-68)

The configured git remotes are a list of (name, url) pairs; `git remote -v`
prints, for each remote, a fetch line and a push line `name<TAB>url (kind)`.
The script's test is `'origin' not in remotes`, a substring test on that
output. -/

/-- Whether `needle` is a prefix of `hay`. -/
def startsWithChars : List Char → List Char → Bool
  | [], _ => true
  | _ :: _, [] => false
  | a :: as, b :: bs => a == b && startsWithChars as bs

/-- Python's substring test `needle in hay`. -/
def containsSub (needle : List Char) : List Char → Bool
  | [] => needle.isEmpty
  | c :: t => startsWithChars needle (c :: t) || containsSub needle t

/-- Output of `git remote -v` for a configured remote list. -/
def renderRemotes (rs : List (String × String)) : List Char :=
  (rs.map (fun r =>
    r.1.toList ++ '\t' :: r.2.toList ++ (" (fetch)\n".toList) ++
    r.1.toList ++ '\t' :: r.2.toList ++ (" (push)\n".toList))).flatten

/-- The characters of the literal `'origin'` tested at line 53. -/
def originChars : List Char := "origin".toList

/-- Model of the remote-adding decision of `ensure_github_remote`
(lines 47-59): returns whether `git remote add origin …` was executed and
the resulting remote list.  `login` is the authenticated user's login and
`promptedName` the repository name read at line 54. -/
def ensure_github_remote (login promptedName : String)
    (rs : List (String × String)) : Bool × List (String × String) :=
  if containsSub originChars (renderRemotes rs) then (false, rs)
  else (true, rs ++ [("origin",
    "https://github.com/" ++ login ++ "/" ++ promptedName ++ ".git")])

/-- Whether a remote literally named `origin` is configured. -/
def hasOriginNamed (rs : List (String × String)) : Bool :=
  rs.any (·.1 == "origin")

/-- Number of remotes literally named `origin`. -/
def countOrigin (rs : List (String × String)) : Nat :=
  (rs.filter (·.1 == "origin")).length

/-! ### Repository short name (line 66)

`repo_name = remote_url.split('/')[-1].replace('.git', '')`. -/

/-- The characters of the literal `'.git'`. -/
def dotGit : List Char := ['.', 'g', 'i', 't']

def pyReplaceDotGitF : Nat → List Char → List Char
  | 0, l => l
  | f + 1, l =>
    match l with
    | [] => []
    | c :: t =>
      if (c :: t).take 4 = dotGit then pyReplaceDotGitF f ((c :: t).drop 4)
      else c :: pyReplaceDotGitF f t

/-- Python `s.replace('.git', '')`: remove every left-to-right
non-overlapping occurrence of `.git`. -/
def pyReplaceDotGit (l : List Char) : List Char :=
  pyReplaceDotGitF l.length l

/-- Python `url.split('/')[-1]`: the last `/`-separated segment. -/
def lastSegment (url : List Char) : List Char := (url.splitOn '/').getLastD []

/-- Line 66: the repository short name derived from the resolved URL. -/
def repoShortName (url : List Char) : List Char :=
  pyReplaceDotGit (lastSegment url)

/-- The computation described by the specification's words for line 66:
remove a single trailing `.git` extension and alter nothing else.  Stated
for comparison with `repoShortName`, which is taken from the source. -/
def stripTrailingGitOnce (seg : List Char) : List Char :=
  if startsWithChars dotGit.reverse seg.reverse then seg.take (seg.length - 4)
  else seg

/-! ### The `version=['\"][\d.]+['\"]` pattern (lines 129-135)

`re.sub` scans left to right; at each position the pattern matches the
literal `version=`, one quote character, a non-empty maximal run of digits
and dots (maximality is exact here because a quote is never a digit or a
dot, so the `+` cannot backtrack to a shorter run), and one quote character
(the two quotes may differ).  Every non-overlapping match is replaced by
`version='<new>'` and scanning resumes after the match. -/

/-- The characters of the literal `version=`. -/
def verEqChars : List Char := ['v', 'e', 'r', 's', 'i', 'o', 'n', '=']

/-- Whether a list starts with a quote character. -/
def headIsQuote : List Char → Bool
  | q :: _ => isQuoteCh q
  | [] => false

/-- Try to match `version=['\"][\d.]+['\"]` at the head of `l`; on success
return the digits-and-dots value and the remainder after the match.  (The
maximal digits-and-dots run after the opening quote is exact: a quote is
neither a digit nor a dot, so the greedy `+` never backtracks.) -/
def tryMatch (l : List Char) : Option (List Char × List Char) :=
  if l.take 8 = verEqChars && headIsQuote (l.drop 8) &&
      !((l.drop 9).takeWhile isDigitDot).isEmpty &&
      headIsQuote ((l.drop 9).dropWhile isDigitDot) then
    some ((l.drop 9).takeWhile isDigitDot,
      ((l.drop 9).dropWhile isDigitDot).tail)
  else none

/-- The replacement text `version='<new>'` (line 132). -/
def replChunk (newV : List Char) : List Char :=
  verEqChars ++ '\'' :: (newV ++ ['\''])

/-- Model of line 132,
`re.sub(r"version=['\"][\d.]+['\"]", f"version='{new_version}'", content)`:
replace every non-overlapping occurrence, scanning left to right.  (The
replacement string contains no backslash, so `re.sub` inserts it
literally.) -/
def reSubVersionF (newV : List Char) : Nat → List Char → List Char
  | 0, l => l
  | f + 1, l =>
    match tryMatch l with
    | some (_, rest) => replChunk newV ++ reSubVersionF newV f rest
    | none =>
      match l with
      | [] => []
      | c :: t => c :: reSubVersionF newV f t

/-- Wrapper running the scan with enough fuel to process the whole text
(each step consumes at least one character). -/
def reSubVersion (newV : List Char) (l : List Char) : List Char :=
  reSubVersionF newV l.length l

/-- The substitution described by the specification's words for C2: replace
only the first occurrence of the pattern and leave the rest of the text
unchanged.  Stated for comparison with `reSubVersion`, which is taken from
the source. -/
def reSubVersionFirst (newV : List Char) (l : List Char) : List Char :=
  match tryMatch l with
  | some (_, rest) => replChunk newV ++ rest
  | none =>
    match l with
    | [] => []
    | c :: t => c :: reSubVersionFirst newV t

/-- Scan `l` for pattern occurrences (left to right, non-overlapping) and
check that every occurrence carries the value `newV`. -/
def allReplacedF (newV : List Char) : Nat → List Char → Bool
  | 0, _ => true
  | f + 1, l =>
    match tryMatch l with
    | some (v, rest) => v == newV && allReplacedF newV f rest
    | none =>
      match l with
      | [] => true
      | _ :: t => allReplacedF newV f t

/-- Wrapper running the occurrence scan with enough fuel. -/
def allReplaced (newV : List Char) (l : List Char) : Bool :=
  allReplacedF newV l.length l

/-! ### The embedded version value

The claims speak of "the value in the descriptor's `version='...'`
assignment".  An assignment site is the first occurrence of the literal
`version=` followed by a quote character; its value is the run of
characters up to the matching closing quote (if that quote never closes,
no value is extracted). -/

/-- Whether `l` begins with `version=` followed by a quote character. -/
def assignSiteAt (l : List Char) : Bool :=
  l.take 8 = verEqChars &&
    (match l.drop 8 with
     | q :: _ => isQuoteCh q
     | [] => false)

/-- The quoted value at an assignment site at the head of `l`. -/
def assignValueAt (l : List Char) : Option (List Char) :=
  match l.drop 8 with
  | q :: t =>
    if t.dropWhile (· ≠ q) ≠ [] then some (t.takeWhile (· ≠ q)) else none
  | [] => none

/-- The value embedded in the first `version='...'` assignment of `l`. -/
def extractVersionValue : List Char → Option (List Char)
  | [] => none
  | c :: t =>
    if assignSiteAt (c :: t) then assignValueAt (c :: t)
    else extractVersionValue t

/-! ### The shape check `^\d+(\.\d+){0,2}(\.?[a-zA-Z0-9]+)?$` (line 115)

The regex is deterministic for this alphabet: the maximal digit run after
`\d+` or `\.\d+` is forced (no digit can be followed by a character that
re-enables a shorter match, since the follow set `.`/alnum/end is disjoint
from backtracking opportunities), and taking an available `\.\d+` iteration
never loses (whatever the optional tag could have consumed is still
consumable afterwards).  The parser below implements that greedy reading. -/

/-- The optional trailing group `(\.?[a-zA-Z0-9]+)?$`. -/
def parseTagEnd : List Char → Bool
  | [] => true
  | c :: r =>
    if c = '.' then decide (r ≠ []) && r.all Char.isAlphanum
    else (c :: r).all Char.isAlphanum

/-- Up to `n` further `\.\d+` groups, then the optional trailing group. -/
def parseGroupsEnd : Nat → List Char → Bool
  | _, [] => true
  | 0, l => parseTagEnd l
  | n + 1, c :: r =>
    if c = '.' ∧ r.takeWhile Char.isDigit ≠ [] then
      parseGroupsEnd n (r.dropWhile Char.isDigit)
    else parseTagEnd (c :: r)

/-- The shape check of line 115:
`re.match(r'^\d+(\.\d+){0,2}(\.?[a-zA-Z0-9]+)?$', s)`. -/
def shapeMatch (l : List Char) : Bool :=
  l.takeWhile Char.isDigit ≠ [] &&
    parseGroupsEnd 2 (l.dropWhile Char.isDigit)

/-- Join a list of groups with dots: `joinDots [g1, g2]` is `g1.g2`. -/
def joinDots : List (List Char) → List Char
  | [] => []
  | [g] => g
  | g :: gs => g ++ '.' :: joinDots gs

/-! ### `update_version` (lines 108-138)

The `packaging.version.parse` call is an external library; it is modelled
by the oracle `parseOk` (`true` iff parsing does not raise
`InvalidVersion`).  The prompt loop consumes candidate inputs in order; an
exhausted input list models the loop never terminating, returning no
version and leaving both files untouched. -/

/-- Model of `update_version` (lines 108-138): loop over candidate inputs
until one passes the shape check and the parser, then write it to the
marker file and rewrite the descriptor.  Returns (accepted version, marker
contents, descriptor contents). -/
def update_version (parseOk : List Char → Bool) :
    List (List Char) → List Char → List Char →
    Option (List Char) × List Char × List Char
  | [], m, s => (none, m, s)
  | i :: rest, m, s =>
    if shapeMatch i && parseOk i then (some i, i, reSubVersion i s)
    else update_version parseOk rest m s

/-! ### `update_setup_py_version` (lines 190-199) and the tail of `main`
(lines 182-188)

The pattern at line 194 is `version='[\d.]+'` (single quotes only). -/

/-- Whether a list starts with a single-quote character. -/
def headIsSQ : List Char → Bool
  | c :: _ => c = '\''
  | [] => false

/-- Try to match `version='[\d.]+'` at the head of `l`; on success return
the remainder after the match. -/
def tryMatchSQ (l : List Char) : Option (List Char) :=
  if l.take 9 = verEqChars ++ ['\''] &&
      !((l.drop 9).takeWhile isDigitDot).isEmpty &&
      headIsSQ ((l.drop 9).dropWhile isDigitDot) then
    some (((l.drop 9).dropWhile isDigitDot).tail)
  else none

def update_setup_py_versionF (newV : List Char) : Nat → List Char → List Char
  | 0, l => l
  | f + 1, l =>
    match tryMatchSQ l with
    | some rest => replChunk newV ++ update_setup_py_versionF newV f rest
    | none =>
      match l with
      | [] => []
      | c :: t => c :: update_setup_py_versionF newV f t

/-- Model of `update_setup_py_version` (lines 190-199): replace every
occurrence of `version='[\d.]+'` by `version='<new>'`. -/
def update_setup_py_version (newV : List Char) (l : List Char) : List Char :=
  update_setup_py_versionF newV l.length l

/-- What the tail of `main` does with the `upload_to_pypi` result
(lines 182-188): a truthy result leads to `update_setup_py_version`, a
falsy one to `sys.exit(1)`. -/
inductive MainTail
  | rewroteSetup (s : List Char)
  | exitedNonzero
deriving DecidableEq

/-- Model of `main` lines 182-188. -/
def main_after_upload (uploadRes : Option Bool) (setup newV : List Char) :
    MainTail :=
  if pyTruthyOptB uploadRes then .rewroteSetup (update_setup_py_version newV setup)
  else .exitedNonzero

/-! ### Concrete oracles and states used in witnesses and counterexamples -/

/-- An environment with no variable set. -/
def envUnset : String → Option String := fun _ => none

/-- An environment in which `GITHUB_TOKEN` is set to the empty string. -/
def envGithubEmpty : String → Option String :=
  fun n => if n = "GITHUB_TOKEN" then some "" else none

/-- An authentication oracle that rejects every token. -/
def authNever : String → Bool := fun _ => false

/-- An upload oracle that fails for every credential pair. -/
def uploadNever : String → String → Bool := fun _ _ => false

/-- A semantic-version parser oracle that accepts every string. -/
def parseAlways : List Char → Bool := fun _ => true

/-- Whether a `github_login` outcome is a `sys.exit`. -/
def isExited : GLOutcome → Bool
  | .exited _ _ _ => true
  | _ => false

/-! ## Theorems -/

/-! ### Store lemmas -/

theorem lookup_delete (st : Store) (service ctype : String) :
    lookupStore (deleteStore st service ctype) service ctype = none := by
  have h : (deleteStore st service ctype).find?
      (fun e => e.1.1 == service && e.1.2 == ctype) = none := by
    rw [List.find?_eq_none]
    intro x hx
    have hm := List.of_mem_filter hx
    simp at hm ⊢
    tauto
  simp [lookupStore, h]

theorem lookup_delete_ne (st : Store) (s2 c2 s c : String)
    (h : s ≠ s2 ∨ c ≠ c2) :
    lookupStore (deleteStore st s2 c2) s c = lookupStore st s c := by
  induction st with
  | nil => rfl
  | cons e t ih =>
    by_cases hq : (e.1.1 == s2 && e.1.2 == c2) = true
    · have hp : (e.1.1 == s && e.1.2 == c) = false := by
        simp at hq ⊢
        intro h1
        rcases h with h | h <;> intro h2 <;> simp_all
      simp only [deleteStore, List.filter_cons, hq, Bool.not_true, if_neg,
        Bool.false_eq_true, not_false_iff]
      rw [show lookupStore (e :: t) s c = lookupStore t s c by
        simp [lookupStore, List.find?_cons, hp]]
      exact ih
    · have hq2 : (!(e.1.1 == s2 && e.1.2 == c2)) = true := by
        simp at hq ⊢; tauto
      simp only [deleteStore, List.filter_cons, hq2, if_pos]
      by_cases hp : (e.1.1 == s && e.1.2 == c) = true
      · simp [lookupStore, List.find?_cons, hp]
      · have hp2 : (e.1.1 == s && e.1.2 == c) = false := by
          simp at hp ⊢; tauto
        simp only [lookupStore, List.find?_cons, hp2]
        exact ih

/-! ### C8: the `run_command` sentinel -/

/-- C8 counterexample: a command that exits successfully with empty output
yields `""`, which is falsy, so "falsy iff the command failed" and "a
successfully exiting command yields a truthy value" are both violated. -/
theorem c8_counterexample_empty_output :
    run_command 0 [] = RunResult.output [] ∧
    pyFalsyRun (run_command 0 []) = true := by
  decide

/-- C8 (amended): `run_command` returns the sentinel `False` exactly when
the subprocess exited with a non-zero status; a successfully exiting
command yields the stripped stdout string (which is itself falsy exactly
when that string is empty, so callers must test `is False`, as the source
does). -/
theorem c8_run_command_sentinel (exitCode : Nat) (stdout : List Char) :
    (run_command exitCode stdout = RunResult.failure ↔ exitCode ≠ 0) ∧
    (exitCode = 0 →
      run_command exitCode stdout = RunResult.output (pyStrip stdout)) := by
  constructor
  · constructor
    · intro h h0
      rw [h0] at h
      simp [run_command] at h
    · intro h
      simp [run_command, h]
  · intro h0
    simp [run_command, h0]

/-- Witness for C8: both branches at concrete inputs. -/
theorem c8_run_command_sentinel_witness :
    run_command 1 ['x'] = RunResult.failure ∧
    run_command 0 [' ', 'x'] = RunResult.output ['x'] := by
  refine ⟨(c8_run_command_sentinel 1 ['x']).1.mpr (by decide), ?_⟩
  have h := (c8_run_command_sentinel 0 [' ', 'x']).2 rfl
  rw [h]
  decide

/-! ### C4: credential resolution order -/

/-- C4 counterexample: `GITHUB_TOKEN` set (to the empty string) while the
store holds a value: the environment variable is set, yet the secure store
is consulted and its value returned, because Python `or` discards the falsy
empty string.  This contradicts "corresponding environment variable if set
… an earlier source being available means the later sources are not
consulted". -/
theorem c4_counterexample_empty_env :
    (envGithubEmpty "GITHUB_TOKEN").isSome = true ∧
    lookupStore [(("github", "token"), "stored")] "github" "token" =
      some "stored" ∧
    (resolveCred envGithubEmpty "GITHUB_TOKEN" "github" "token"
      [(("github", "token"), "stored")] ["prompted", "n"]).1 = "stored" := by
  refine ⟨rfl, by decide, by decide⟩

/-- C4 (amended): for each of the three (service, kind) pairs the program
resolves, the order is: environment variable if set to a non-empty string,
else the stored value if present and non-empty, else the interactive
prompt; an earlier source yielding a non-empty value leaves the store and
the input stream untouched. -/
theorem c4_resolution_order (env : String → Option String) (st : Store)
    (inputs : List String) (envName service ctype : String)
    (hmem : (envName, service, ctype) ∈ credTriples) :
    (∀ v, env envName = some v → v ≠ "" →
      resolveCred env envName service ctype st inputs = (v, st, inputs)) ∧
    ((env envName = none ∨ env envName = some "") →
      ∀ w, lookupStore st service ctype = some w → w ≠ "" →
      resolveCred env envName service ctype st inputs = (w, st, inputs)) ∧
    ((env envName = none ∨ env envName = some "") →
      (lookupStore st service ctype = none ∨
        lookupStore st service ctype = some "") →
      (resolveCred env envName service ctype st inputs).1 = inputs.headD "" ∧
      (resolveCred env envName service ctype st inputs).2.2 =
        inputs.drop 2) := by
  refine ⟨?_, ?_, ?_⟩
  · intro v hv hne
    simp [resolveCred, hv, hne]
  · rintro (he | he) w hw hwne <;>
      simp [resolveCred, he, get_or_set_credential, hw, hwne]
  · rintro (he | he) (hl | hl) <;>
      simp [resolveCred, he, get_or_set_credential, hl]

/-- Witness for C4: with no environment variable and a stored github token,
the stored value is returned and nothing is consumed. -/
theorem c4_resolution_order_witness :
    resolveCred envUnset "GITHUB_TOKEN" "github" "token"
      [(("github", "token"), "tok")] ["a", "y"] =
      ("tok", [(("github", "token"), "tok")], ["a", "y"]) :=
  (c4_resolution_order envUnset [(("github", "token"), "tok")] ["a", "y"]
    "GITHUB_TOKEN" "github" "token" (by simp [credTriples])).2.1
    (Or.inl rfl) "tok" (by decide) (by decide)

/-! ### C5: the `github_login` retry loop -/

theorem github_login_attempts_le (authOk : String → Bool)
    (env : String → Option String) :
    ∀ max st inp, github_login_attempts authOk env max st inp ≤ max := by
  intro max
  induction max with
  | zero => intro st inp; simp [github_login_attempts]
  | succ r ih =>
    intro st inp
    by_cases h : authOk (resolveCred env "GITHUB_TOKEN" "github" "token"
        st inp).1 = true
    · simp [github_login_attempts, h]
    · by_cases hr : r = 0
      · simp [github_login_attempts, h, hr]
      · have hh := ih (deleteStore (resolveCred env "GITHUB_TOKEN" "github"
          "token" st inp).2.1 "github" "token")
          (resolveCred env "GITHUB_TOKEN" "github" "token" st inp).2.2
        simp only [github_login_attempts, h, hr, Bool.false_eq_true,
          if_false, if_neg]
        omega

theorem github_login_all_fail (authOk : String → Bool)
    (env : String → Option String) (hall : ∀ t, authOk t = false) :
    ∀ max, 1 ≤ max → ∀ st inp, ∃ st2 inp2,
      github_login authOk env max st inp = GLOutcome.exited 1 st2 inp2 := by
  intro max
  induction max with
  | zero => intro h; exact absurd h (by omega)
  | succ r ih =>
    intro _ st inp
    by_cases hr : r = 0
    · subst hr
      refine ⟨deleteStore (resolveCred env "GITHUB_TOKEN" "github" "token"
        st inp).2.1 "github" "token",
        (resolveCred env "GITHUB_TOKEN" "github" "token" st inp).2.2, ?_⟩
      simp [github_login, hall]
    · obtain ⟨st2, inp2, hh⟩ := ih (by omega)
        (deleteStore (resolveCred env "GITHUB_TOKEN" "github" "token"
          st inp).2.1 "github" "token")
        (resolveCred env "GITHUB_TOKEN" "github" "token" st inp).2.2
      exact ⟨st2, inp2, by simp [github_login, hall, hr, hh]⟩

theorem github_login_ok_auth (authOk : String → Bool)
    (env : String → Option String) :
    ∀ max st inp tok st2 inp2,
      github_login authOk env max st inp = GLOutcome.ok tok st2 inp2 →
      authOk tok = true := by
  intro max
  induction max with
  | zero => intro st inp tok st2 inp2 h; simp [github_login] at h
  | succ r ih =>
    intro st inp tok st2 inp2 h
    by_cases ha : authOk (resolveCred env "GITHUB_TOKEN" "github" "token"
        st inp).1 = true
    · simp [github_login, ha] at h
      rw [← h.1]
      exact ha
    · by_cases hr : r = 0
      · simp [github_login, ha, hr] at h
      · simp only [github_login, ha, hr, Bool.false_eq_true, if_false,
          if_neg] at h
        exact ih _ _ _ _ _ h

/-- C5 counterexample: with `max_attempts = 0` the `for` loop body never
runs, so `github_login` returns Python `None` instead of terminating the
process, even though (vacuously) all attempts failed; the stored token also
survives. -/
theorem c5_counterexample_zero_attempts :
    github_login authNever envUnset 0 [(("github", "token"), "tok")] [] =
      GLOutcome.fellThrough [(("github", "token"), "tok")] [] ∧
    isExited (github_login authNever envUnset 0
      [(("github", "token"), "tok")] []) = false := by
  decide

/-- C5 (amended): provided `max_attempts ≥ 1`: every authorization failure
deletes the stored github token before the next attempt (and before the
final exit), at most `max_attempts` loop iterations run, exhausting all
attempts ends in `sys.exit(1)`, and a returned session is one whose token
authenticated. -/
theorem c5_github_login_retry (authOk : String → Bool)
    (env : String → Option String) (max_attempts : Nat) (st : Store)
    (inputs : List String) (hmax : 1 ≤ max_attempts) :
    (∀ r st0 inp0 res,
      resolveCred env "GITHUB_TOKEN" "github" "token" st0 inp0 = res →
      authOk res.1 = false →
      lookupStore (deleteStore res.2.1 "github" "token") "github" "token" =
        none ∧
      github_login authOk env (r + 1) st0 inp0 =
        if r = 0 then
          GLOutcome.exited 1 (deleteStore res.2.1 "github" "token") res.2.2
        else
          github_login authOk env r (deleteStore res.2.1 "github" "token")
            res.2.2) ∧
    github_login_attempts authOk env max_attempts st inputs ≤ max_attempts ∧
    ((∀ t, authOk t = false) → ∃ st2 inp2,
      github_login authOk env max_attempts st inputs =
        GLOutcome.exited 1 st2 inp2) ∧
    (∀ tok st2 inp2,
      github_login authOk env max_attempts st inputs =
        GLOutcome.ok tok st2 inp2 → authOk tok = true) := by
  refine ⟨?_, github_login_attempts_le authOk env max_attempts st inputs,
    fun hall => github_login_all_fail authOk env hall max_attempts hmax
      st inputs,
    fun tok st2 inp2 h => github_login_ok_auth authOk env max_attempts st
      inputs tok st2 inp2 h⟩
  rintro r st0 inp0 res rfl hf
  refine ⟨lookup_delete _ _ _, ?_⟩
  simp [github_login, hf]

/-- Witness for C5: two failing attempts end in `sys.exit(1)`. -/
theorem c5_github_login_retry_witness :
    ∃ st2 inp2, github_login authNever envUnset 2 [] ["t1", "n", "t2", "n"] =
      GLOutcome.exited 1 st2 inp2 :=
  (c5_github_login_retry authNever envUnset 2 [] ["t1", "n", "t2", "n"]
    (by decide)).2.2.1 (fun _ => rfl)

/-! ### C6: the `upload_to_pypi` retry loop and the tail of `main` -/

theorem upload_all_fail (uploadOk : String → String → Bool)
    (env : String → Option String) (hall : ∀ u p, uploadOk u p = false) :
    ∀ max st inp,
      pyTruthyOptB (upload_to_pypi uploadOk env max st inp).1 = false := by
  intro max
  induction max with
  | zero => intro st inp; simp [upload_to_pypi, pyTruthyOptB]
  | succ r ih =>
    intro st inp
    by_cases hr : r = 0
    · simp [upload_to_pypi, hall, hr, pyTruthyOptB]
    · simp only [upload_to_pypi, hall, hr, Bool.false_eq_true, if_false,
        if_neg]
      exact ih _ _

/-- C6: every failing upload attempt deletes both stored PyPI credentials
before the next attempt (and before the final return), a run in which every
attempt fails returns a falsy value (`False`, or `None` when
`max_attempts = 0`), and on a falsy result `main` exits with status 1
without invoking `update_setup_py_version`. -/
theorem c6_upload_failure_handling (uploadOk : String → String → Bool)
    (env : String → Option String) (max_attempts : Nat) (st : Store)
    (inputs : List String) :
    (∀ r st0 inp0 ru rp,
      resolveCred env "PYPI_USERNAME" "pypi" "username" st0 inp0 = ru →
      resolveCred env "PYPI_PASSWORD" "pypi" "token" ru.2.1 ru.2.2 = rp →
      uploadOk ru.1 rp.1 = false →
      lookupStore (deleteStore (deleteStore rp.2.1 "pypi" "username")
        "pypi" "token") "pypi" "username" = none ∧
      lookupStore (deleteStore (deleteStore rp.2.1 "pypi" "username")
        "pypi" "token") "pypi" "token" = none ∧
      upload_to_pypi uploadOk env (r + 1) st0 inp0 =
        if r = 0 then
          (some false, deleteStore (deleteStore rp.2.1 "pypi" "username")
            "pypi" "token", rp.2.2)
        else
          upload_to_pypi uploadOk env r
            (deleteStore (deleteStore rp.2.1 "pypi" "username") "pypi"
              "token") rp.2.2) ∧
    ((∀ u p, uploadOk u p = false) →
      pyTruthyOptB (upload_to_pypi uploadOk env max_attempts st inputs).1 =
        false) ∧
    (∀ res setup newV, pyTruthyOptB res = false →
      main_after_upload res setup newV = MainTail.exitedNonzero) := by
  refine ⟨?_, fun hall => upload_all_fail uploadOk env hall max_attempts st
    inputs, ?_⟩
  · rintro r st0 inp0 ru rp rfl rfl hf
    refine ⟨(lookup_delete_ne _ "pypi" "token" "pypi" "username"
        (Or.inr (by decide))).trans (lookup_delete _ _ _),
      lookup_delete _ _ _, ?_⟩
    simp [upload_to_pypi, hf]
  · intro res setup newV h
    simp [main_after_upload, h]

/-- Witness for C6: three failing attempts return `False` and `main` then
exits without rewriting the descriptor. -/
theorem c6_upload_failure_handling_witness :
    pyTruthyOptB (upload_to_pypi uploadNever envUnset 3 []
      ["u", "n", "p", "n", "u", "n", "p", "n", "u", "n", "p", "n"]).1 =
      false ∧
    main_after_upload (some false) ['x'] ['1'] = MainTail.exitedNonzero :=
  ⟨(c6_upload_failure_handling uploadNever envUnset 3 []
      ["u", "n", "p", "n", "u", "n", "p", "n", "u", "n", "p", "n"]).2.1
      (fun _ _ => rfl),
   (c6_upload_failure_handling uploadNever envUnset 3 [] []).2.2
      (some false) ['x'] ['1'] rfl⟩

/-! ### C7: the `origin` remote check -/

theorem startsWith_append (needle x : List Char) :
    startsWithChars needle (needle ++ x) = true := by
  induction needle with
  | nil => rfl
  | cons c t ih => simp [startsWithChars, ih]

theorem containsSub_of_startsWith {needle hay : List Char}
    (h : startsWithChars needle hay = true) :
    containsSub needle hay = true := by
  cases hay with
  | nil =>
    cases needle with
    | nil => rfl
    | cons c t => simp [startsWithChars] at h
  | cons c t => simp [containsSub, h]

theorem containsSub_append_right (needle h1 h2 : List Char)
    (h : containsSub needle h2 = true) :
    containsSub needle (h1 ++ h2) = true := by
  induction h1 with
  | nil => simpa using h
  | cons c t ih => simp [containsSub, ih]

theorem startsWith_append_assoc (needle a b : List Char) :
    startsWithChars needle ((needle ++ a) ++ b) = true := by
  rw [List.append_assoc]
  exact startsWith_append _ _

theorem mem_render_contains {rs : List (String × String)} {u : String}
    (h : ("origin", u) ∈ rs) :
    containsSub originChars (renderRemotes rs) = true := by
  obtain ⟨l1, l2, rfl⟩ := List.append_of_mem h
  rw [renderRemotes, List.map_append, List.map_cons, List.flatten_append,
    List.flatten_cons]
  apply containsSub_append_right
  apply containsSub_of_startsWith
  exact startsWith_append_assoc _ _ _

/-- C7 counterexample: a repository whose only remote is named `originals`
has no remote named `origin`, yet the substring test `'origin' in remotes`
succeeds and no `git remote add` is executed — refuting "if no remote named
origin exists, one is added". -/
theorem c7_counterexample_originals :
    hasOriginNamed [("originals", "https://example.com/r.git")] = false ∧
    (ensure_github_remote "user" "repo"
      [("originals", "https://example.com/r.git")]).1 = false := by
  decide

/-- C7 (amended): if a remote named `origin` exists, no add is executed and
the remotes are unchanged (so a second `origin` is never added); and if the
`git remote -v` output does not even contain the substring `origin`, an
`origin` remote is added and exactly one remote named `origin` results.
(The source's test is a substring test, so a remote whose name or URL
merely contains `origin` also suppresses the add.) -/
theorem c7_ensure_remote (login pname : String)
    (rs : List (String × String)) :
    (∀ u, ("origin", u) ∈ rs →
      (ensure_github_remote login pname rs).1 = false ∧
      (ensure_github_remote login pname rs).2 = rs) ∧
    (containsSub originChars (renderRemotes rs) = false →
      (ensure_github_remote login pname rs).1 = true ∧
      countOrigin (ensure_github_remote login pname rs).2 = 1) := by
  constructor
  · intro u hmem
    have hc := mem_render_contains hmem
    simp [ensure_github_remote, hc]
  · intro hnc
    have hres : ∀ e ∈ rs, ¬((e.1 == "origin") = true) := by
      intro e he hcon
      simp at hcon
      have hmem : ("origin", e.2) ∈ rs := by
        rw [← hcon]
        simpa using he
      have := mem_render_contains hmem
      rw [hnc] at this
      exact absurd this (by simp)
    constructor
    · simp [ensure_github_remote, hnc]
    · have h2 : (ensure_github_remote login pname rs).2 = rs ++ [("origin",
        "https://github.com/" ++ login ++ "/" ++ pname ++ ".git")] := by
        simp [ensure_github_remote, hnc]
      rw [h2]
      simp [countOrigin, List.filter_append, List.filter_eq_nil_iff.mpr hres]

/-- Witness for C7: an existing `origin` remote suppresses the add. -/
theorem c7_ensure_remote_witness :
    (ensure_github_remote "me" "r" [("origin", "https://g/u.git")]).1 =
      false ∧
    (ensure_github_remote "me" "r" [("origin", "https://g/u.git")]).2 =
      [("origin", "https://g/u.git")] :=
  (c7_ensure_remote "me" "r" [("origin", "https://g/u.git")]).1
    "https://g/u.git" (by simp)

/-! ### C9: the repository short name -/

theorem pyReplaceDotGitF_fuel :
    ∀ f g l, l.length ≤ f → l.length ≤ g →
      pyReplaceDotGitF f l = pyReplaceDotGitF g l := by
  intro f
  induction f with
  | zero =>
    intro g l hf hg
    have hl : l = [] := List.eq_nil_of_length_eq_zero (by omega)
    subst hl
    cases g <;> simp [pyReplaceDotGitF]
  | succ f ih =>
    intro g l hf hg
    cases g with
    | zero =>
      have hl : l = [] := List.eq_nil_of_length_eq_zero (by omega)
      subst hl
      simp [pyReplaceDotGitF]
    | succ g =>
      cases l with
      | nil => simp [pyReplaceDotGitF]
      | cons c t =>
        simp only [pyReplaceDotGitF]
        by_cases h4 : (c :: t).take 4 = dotGit
        · rw [if_pos h4, if_pos h4]
          apply ih
          · simp at hf ⊢ <;> omega
          · simp at hg ⊢ <;> omega
        · rw [if_neg h4, if_neg h4]
          have hh := ih g t (by simp at hf; omega) (by simp at hg; omega)
          rw [hh]

theorem pyReplaceDotGit_match {c : Char} {t : List Char}
    (h4 : (c :: t).take 4 = dotGit) :
    pyReplaceDotGit (c :: t) = pyReplaceDotGit ((c :: t).drop 4) := by
  show pyReplaceDotGitF (c :: t).length (c :: t) = _
  rw [show (c :: t).length = t.length + 1 from rfl]
  simp only [pyReplaceDotGitF]
  rw [if_pos h4]
  exact pyReplaceDotGitF_fuel t.length ((c :: t).drop 4).length _
    (by simp <;> omega) (le_refl _)

theorem pyReplaceDotGit_nomatch {c : Char} {t : List Char}
    (h4 : (c :: t).take 4 ≠ dotGit) :
    pyReplaceDotGit (c :: t) = c :: pyReplaceDotGit t := by
  show pyReplaceDotGitF (c :: t).length (c :: t) = _
  rw [show (c :: t).length = t.length + 1 from rfl]
  simp only [pyReplaceDotGitF]
  rw [if_neg h4]
  rfl

theorem pyReplace_base_dotGit (base : List Char) (hni : ¬ dotGit <:+: base) :
    pyReplaceDotGit (base ++ dotGit) = base := by
  induction base with
  | nil =>
    show pyReplaceDotGit dotGit = []
    decide
  | cons c bs ih =>
    have hni2 : ¬ dotGit <:+: bs := fun hx => hni (List.infix_cons hx)
    have h4 : (c :: (bs ++ dotGit)).take 4 ≠ dotGit := by
      intro h4
      rcases bs with _ | ⟨b1, _ | ⟨b2, _ | ⟨b3, rest⟩⟩⟩
      · simp [dotGit] at h4
      · simp [dotGit] at h4
      · simp [dotGit] at h4
      · simp only [List.cons_append, List.take, dotGit] at h4
        obtain ⟨hc, hb1, hb2, hb3⟩ : c = '.' ∧ b1 = 'g' ∧ b2 = 'i' ∧
            b3 = 't' := by
          simpa using h4
        subst hc; subst hb1; subst hb2; subst hb3
        exact hni ⟨[], rest, by simp [dotGit]⟩
    rw [show (c :: bs) ++ dotGit = c :: (bs ++ dotGit) from rfl]
    rw [pyReplaceDotGit_nomatch h4, ih hni2]

/-- C9 counterexample: for the resolved URL
`https://github.com/u/a.git.git` the source computes the short name `a`
(every occurrence of `.git` is removed by `str.replace`), while removing a
single trailing `.git` extension would give `a.git`. -/
theorem c9_counterexample_double_git :
    repoShortName "https://github.com/u/a.git.git".toList = "a".toList ∧
    stripTrailingGitOnce
      (lastSegment "https://github.com/u/a.git.git".toList) =
      "a.git".toList ∧
    repoShortName "https://github.com/u/a.git.git".toList ≠
      stripTrailingGitOnce
        (lastSegment "https://github.com/u/a.git.git".toList) := by
  refine ⟨by decide, by decide, by decide⟩

/-- C9 (amended): the short name is the URL's last `/`-separated segment
with every left-to-right non-overlapping occurrence of `.git` removed; in
particular, whenever `.git` occurs in that segment only as a trailing
extension, the short name is the segment with that extension removed and no
other characters altered. -/
theorem c9_repo_short_name (url base : List Char)
    (hseg : lastSegment url = base ++ dotGit)
    (hni : ¬ dotGit <:+: base) :
    repoShortName url = base := by
  rw [repoShortName, hseg]
  exact pyReplace_base_dotGit base hni

/-- Witness for C9 at a well-formed URL. -/
theorem c9_repo_short_name_witness :
    repoShortName "https://github.com/u/repo.git".toList = "repo".toList :=
  c9_repo_short_name "https://github.com/u/repo.git".toList "repo".toList
    (by decide) (by decide)

/-! ### C3: rejected version strings -/

/-- C3: an input rejected by the shape check or by the semantic-version
parser leaves both files untouched and the loop moves on to the next
prompted input (the recursion continues on the remaining input stream with
the same marker and descriptor contents). -/
theorem c3_rejected_input_skipped (parseOk : List Char → Bool)
    (i : List Char) (rest : List (List Char)) (m s : List Char)
    (h : shapeMatch i = false ∨ parseOk i = false) :
    update_version parseOk (i :: rest) m s =
      update_version parseOk rest m s := by
  rcases h with h | h <;> simp [update_version, h]

/-- Witness for C3: `abc` fails the shape check and is skipped. -/
theorem c3_rejected_input_skipped_witness :
    update_version parseAlways ["abc".toList, "1.2".toList] "1.0".toList
      "x".toList =
      update_version parseAlways ["1.2".toList] "1.0".toList "x".toList :=
  c3_rejected_input_skipped parseAlways "abc".toList ["1.2".toList]
    "1.0".toList "x".toList (Or.inl (by decide))

/-! ### C10: how many numeric groups the shape check accepts -/

theorem takeWhile_append_all {p : Char → Bool} :
    ∀ a b : List Char, (∀ c ∈ a, p c = true) →
      (a ++ b).takeWhile p = a ++ b.takeWhile p ∧
      (a ++ b).dropWhile p = b.dropWhile p := by
  intro a
  induction a with
  | nil => intro b ha; simp
  | cons c t ih =>
    intro b ha
    have hc : p c = true := ha c (by simp)
    have iht := ih b (fun x hx => ha x (by simp [hx]))
    constructor <;>
      simp [List.takeWhile_cons, List.dropWhile_cons, hc, iht.1, iht.2]

theorem takeWhile_stop {p : Char → Bool} (v r : List Char) (x : Char)
    (hv : ∀ c ∈ v, p c = true) (hx : p x = false) :
    (v ++ x :: r).takeWhile p = v ∧ (v ++ x :: r).dropWhile p = x :: r := by
  have h := takeWhile_append_all v (x :: r) hv
  constructor
  · rw [h.1]
    simp [List.takeWhile_cons, hx]
  · rw [h.2]
    simp [List.dropWhile_cons, hx]

theorem digit_alnum {c : Char} (h : Char.isDigit c = true) :
    Char.isAlphanum c = true := by
  simp [Char.isAlphanum, h]

/-- C10 counterexample: the claim's own example `1.2.3.4` — four
dot-separated numeric groups — is accepted by the shape check (the optional
trailing-tag group `(\.?[a-zA-Z0-9]+)?` consumes `.4`), and with a parser
that accepts it `update_version` takes it instead of re-prompting. -/
theorem c10_counterexample_four_groups :
    shapeMatch "1.2.3.4".toList = true ∧
    (update_version parseAlways ["1.2.3.4".toList] "1.0".toList
      "".toList).1 = some "1.2.3.4".toList := by
  refine ⟨by decide, by decide⟩

/-- C10 (amended): the shape check accepts up to four dot-separated numeric
groups — a fourth group is consumed by the optional trailing alphanumeric
tag — and rejects every input consisting of five or more dot-separated
groups. -/
theorem c10_shape_group_counts :
    (∀ g1 g2 g3 g4 : List Char, g1 ≠ [] → g2 ≠ [] → g3 ≠ [] → g4 ≠ [] →
      (∀ c ∈ g1, Char.isDigit c = true) → (∀ c ∈ g2, Char.isDigit c = true) →
      (∀ c ∈ g3, Char.isDigit c = true) → (∀ c ∈ g4, Char.isDigit c = true) →
      shapeMatch (joinDots [g1, g2, g3, g4]) = true) ∧
    (∀ g1 g2 g3 g4 g5 : List Char, ∀ rest : List (List Char),
      g1 ≠ [] → g2 ≠ [] → g3 ≠ [] →
      (∀ c ∈ g1, Char.isDigit c = true) → (∀ c ∈ g2, Char.isDigit c = true) →
      (∀ c ∈ g3, Char.isDigit c = true) →
      shapeMatch (joinDots (g1 :: g2 :: g3 :: g4 :: g5 :: rest)) = false) := by
  have hdot : Char.isDigit '.' = false := by decide
  constructor
  · intro g1 g2 g3 g4 h1 h2 h3 h4 d1 d2 d3 d4
    have j : joinDots [g1, g2, g3, g4] =
        g1 ++ '.' :: (g2 ++ '.' :: (g3 ++ '.' :: g4)) := rfl
    have t1 := takeWhile_stop (p := Char.isDigit) g1
      (g2 ++ '.' :: (g3 ++ '.' :: g4)) '.' d1 hdot
    have t2 := takeWhile_stop (p := Char.isDigit) g2
      (g3 ++ '.' :: g4) '.' d2 hdot
    have t3 := takeWhile_stop (p := Char.isDigit) g3 g4 '.' d3 hdot
    have hall : (g4.all Char.isAlphanum) = true :=
      List.all_eq_true.mpr (fun c hc => digit_alnum (d4 c hc))
    rw [j]
    simp only [shapeMatch, t1.1, t1.2]
    simp only [parseGroupsEnd]
    rw [t2.1, t2.2]
    rw [if_pos (⟨trivial, h2⟩ : True ∧ g2 ≠ [])]
    simp only [parseGroupsEnd]
    rw [t3.1, t3.2]
    rw [if_pos (⟨trivial, h3⟩ : True ∧ g3 ≠ [])]
    simp only [parseGroupsEnd, parseTagEnd]
    simp [h1, h4, hall]
  · intro g1 g2 g3 g4 g5 rest h1 h2 h3 d1 d2 d3
    have j : joinDots (g1 :: g2 :: g3 :: g4 :: g5 :: rest) =
        g1 ++ '.' :: (g2 ++ '.' :: (g3 ++ '.' ::
          joinDots (g4 :: g5 :: rest))) := rfl
    have j4 : joinDots (g4 :: g5 :: rest) =
        g4 ++ '.' :: joinDots (g5 :: rest) := rfl
    have t1 := takeWhile_stop (p := Char.isDigit) g1
      (g2 ++ '.' :: (g3 ++ '.' :: joinDots (g4 :: g5 :: rest))) '.' d1 hdot
    have t2 := takeWhile_stop (p := Char.isDigit) g2
      (g3 ++ '.' :: joinDots (g4 :: g5 :: rest)) '.' d2 hdot
    have t3 := takeWhile_stop (p := Char.isDigit) g3
      (joinDots (g4 :: g5 :: rest)) '.' d3 hdot
    have hmem : ('.' : Char) ∈ joinDots (g4 :: g5 :: rest) := by
      rw [j4]
      exact List.mem_append_right _ (List.mem_cons_self _ _)
    have hall : (joinDots (g4 :: g5 :: rest)).all Char.isAlphanum = false := by
      rcases hb : (joinDots (g4 :: g5 :: rest)).all Char.isAlphanum with _ | _
      · rfl
      · exact absurd (List.all_eq_true.mp hb '.' hmem) (by decide)
    rw [j]
    simp only [shapeMatch, t1.1, t1.2]
    simp only [parseGroupsEnd]
    rw [t2.1, t2.2]
    rw [if_pos (⟨trivial, h2⟩ : True ∧ g2 ≠ [])]
    simp only [parseGroupsEnd]
    rw [t3.1, t3.2]
    rw [if_pos (⟨trivial, h3⟩ : True ∧ g3 ≠ [])]
    simp only [parseGroupsEnd, parseTagEnd]
    simp [hall]

/-- Witness for C10: `1.2.3.4` accepted, `1.2.3.4.5` rejected, through the
group-count theorem. -/
theorem c10_shape_group_counts_witness :
    shapeMatch (joinDots [['1'], ['2'], ['3'], ['4']]) = true ∧
    shapeMatch (joinDots [['1'], ['2'], ['3'], ['4'], ['5']]) = false :=
  ⟨c10_shape_group_counts.1 ['1'] ['2'] ['3'] ['4'] (by decide) (by decide)
      (by decide) (by decide) (by decide) (by decide) (by decide) (by decide),
   c10_shape_group_counts.2 ['1'] ['2'] ['3'] ['4'] ['5'] [] (by decide)
      (by decide) (by decide) (by decide) (by decide) (by decide)⟩

/-! ### The `version=` pattern: structure of a match -/

theorem quote_not_digitdot {c : Char} (h : isQuoteCh c = true) :
    isDigitDot c = false := by
  simp only [isQuoteCh, Bool.or_eq_true, decide_eq_true_eq] at h
  rcases h with rfl | rfl <;> decide

theorem quote_ne_v {c : Char} (h : isQuoteCh c = true) : c ≠ 'v' := by
  simp only [isQuoteCh, Bool.or_eq_true, decide_eq_true_eq] at h
  rcases h with rfl | rfl <;> decide

theorem digitdot_ne_v {c : Char} (h : isDigitDot c = true) : c ≠ 'v' := by
  simp only [isDigitDot, Bool.or_eq_true, decide_eq_true_eq] at h
  rcases h with h | rfl
  · intro he
    subst he
    exact absurd h (by decide)
  · decide

theorem tryMatch_some_elim {l v rest : List Char}
    (h : tryMatch l = some (v, rest)) :
    ∃ q q2, isQuoteCh q = true ∧ isQuoteCh q2 = true ∧ v ≠ [] ∧
      (∀ c ∈ v, isDigitDot c = true) ∧
      l = verEqChars ++ q :: (v ++ q2 :: rest) := by
  unfold tryMatch at h
  split at h
  case isFalse => simp at h
  rename_i hc
  simp only [Bool.and_eq_true, decide_eq_true_eq] at hc
  obtain ⟨⟨⟨h8, hq⟩, hv⟩, haft⟩ := hc
  simp only [Option.some.injEq, Prod.mk.injEq] at h
  obtain ⟨hv2, hrest⟩ := h
  rcases hd8 : l.drop 8 with _ | ⟨q, t⟩
  · rw [hd8] at hq
    simp [headIsQuote] at hq
  · rw [hd8] at hq
    have hqq : isQuoteCh q = true := by simpa [headIsQuote] using hq
    have ht9 : l.drop 9 = t := by
      have h99 : l.drop 9 = (l.drop 8).drop 1 := (List.drop_drop 1 8 l).symm
      rw [h99, hd8]
      rfl
    rw [ht9] at hv hv2 haft hrest
    rcases haf : t.dropWhile isDigitDot with _ | ⟨q2, rest2⟩
    · rw [haf] at haft
      simp [headIsQuote] at haft
    · rw [haf] at haft hrest
      have hq2 : isQuoteCh q2 = true := by simpa [headIsQuote] using haft
      refine ⟨q, q2, hqq, hq2, ?_, ?_, ?_⟩
      · rw [← hv2]
        intro he
        rw [he] at hv
        simp at hv
      · intro c hc2
        rw [← hv2] at hc2
        exact List.mem_takeWhile_imp hc2
      · conv_lhs => rw [← List.take_append_drop 8 l]
        rw [h8, hd8]
        have ht : t = v ++ q2 :: rest := by
          conv_lhs => rw [← List.takeWhile_append_dropWhile isDigitDot t]
          rw [hv2, haf]
          simp at hrest
          rw [hrest]
        rw [ht]

theorem tryMatch_rest_length {l v rest : List Char}
    (h : tryMatch l = some (v, rest)) : rest.length < l.length := by
  obtain ⟨q, q2, _, _, _, _, hl⟩ := tryMatch_some_elim h
  subst hl
  simp [verEqChars]
  omega

theorem tryMatch_build (q q2 : Char) (v rest : List Char)
    (hq : isQuoteCh q = true) (hq2 : isQuoteCh q2 = true) (hv : v ≠ [])
    (hvd : ∀ c ∈ v, isDigitDot c = true) :
    tryMatch (verEqChars ++ q :: (v ++ q2 :: rest)) = some (v, rest) := by
  have hl8 : (verEqChars ++ q :: (v ++ q2 :: rest)).take 8 = verEqChars := by
    rw [show (8 : Nat) = verEqChars.length from rfl, List.take_left]
  have hd8 : (verEqChars ++ q :: (v ++ q2 :: rest)).drop 8 =
      q :: (v ++ q2 :: rest) := by
    rw [show (8 : Nat) = verEqChars.length from rfl, List.drop_left]
  have hd9 : (verEqChars ++ q :: (v ++ q2 :: rest)).drop 9 = v ++ q2 :: rest := by
    have h99 : (verEqChars ++ q :: (v ++ q2 :: rest)).drop 9 =
        ((verEqChars ++ q :: (v ++ q2 :: rest)).drop 8).drop 1 :=
      (List.drop_drop 1 8 _).symm
    rw [h99, hd8]
    rfl
  have htw := takeWhile_stop (p := isDigitDot) v rest q2 hvd
    (quote_not_digitdot hq2)
  unfold tryMatch
  rw [hl8, hd8, hd9, htw.1, htw.2]
  simp [headIsQuote, hq, hq2, hv]

theorem tryMatch_repl (newV : List Char) (hne : newV ≠ [])
    (hdd : ∀ c ∈ newV, isDigitDot c = true) (X : List Char) :
    tryMatch (replChunk newV ++ X) = some (newV, X) := by
  have hform : replChunk newV ++ X =
      verEqChars ++ '\'' :: (newV ++ '\'' :: X) := by
    simp [replChunk]
  rw [hform]
  exact tryMatch_build '\'' '\'' newV X (by decide) (by decide) hne hdd

theorem tryMatch_nil : tryMatch [] = none := by decide

theorem tryMatch_cons_ne_v {c : Char} {t : List Char} (h : c ≠ 'v') :
    tryMatch (c :: t) = none := by
  unfold tryMatch
  rw [if_neg]
  intro hc
  simp only [Bool.and_eq_true, decide_eq_true_eq] at hc
  obtain ⟨⟨⟨h8, _⟩, _⟩, _⟩ := hc
  rw [show (8 : Nat) = 7 + 1 from rfl, List.take_succ_cons] at h8
  simp [verEqChars] at h8
  exact h h8.1

/-! ### Unfolding equations for the substitution scanners -/

theorem reSubVersionF_fuel (newV : List Char) :
    ∀ f g l, l.length ≤ f → l.length ≤ g →
      reSubVersionF newV f l = reSubVersionF newV g l := by
  intro f
  induction f with
  | zero =>
    intro g l hf hg
    have hl : l = [] := List.eq_nil_of_length_eq_zero (by omega)
    subst hl
    cases g <;> simp [reSubVersionF, tryMatch_nil]
  | succ f ih =>
    intro g l hf hg
    cases g with
    | zero =>
      have hl : l = [] := List.eq_nil_of_length_eq_zero (by omega)
      subst hl
      simp [reSubVersionF, tryMatch_nil]
    | succ g =>
      rcases htm : tryMatch l with _ | ⟨v, rest⟩
      · cases l with
        | nil => simp [reSubVersionF, tryMatch_nil]
        | cons c t =>
          simp only [reSubVersionF, htm]
          rw [ih g t (by simp at hf; omega) (by simp at hg; omega)]
      · simp only [reSubVersionF, htm]
        have hlen := tryMatch_rest_length htm
        rw [ih g rest (by omega) (by omega)]

theorem reSub_nil (newV : List Char) : reSubVersion newV [] = [] := rfl

theorem reSub_match {newV l v rest : List Char}
    (h : tryMatch l = some (v, rest)) :
    reSubVersion newV l = replChunk newV ++ reSubVersion newV rest := by
  show reSubVersionF newV l.length l = _
  have hlen := tryMatch_rest_length h
  obtain ⟨n, hn⟩ : ∃ n, l.length = n + 1 := ⟨l.length - 1, by omega⟩
  rw [hn]
  simp only [reSubVersionF, h]
  congr 1
  exact reSubVersionF_fuel newV n rest.length rest (by omega) (le_refl _)

theorem reSub_cons_none {newV : List Char} {c : Char} {t : List Char}
    (h : tryMatch (c :: t) = none) :
    reSubVersion newV (c :: t) = c :: reSubVersion newV t := by
  show reSubVersionF newV (c :: t).length (c :: t) = _
  rw [show (c :: t).length = t.length + 1 from rfl]
  simp only [reSubVersionF, h]
  rfl

theorem allReplacedF_fuel (newV : List Char) :
    ∀ f g l, l.length ≤ f → l.length ≤ g →
      allReplacedF newV f l = allReplacedF newV g l := by
  intro f
  induction f with
  | zero =>
    intro g l hf hg
    have hl : l = [] := List.eq_nil_of_length_eq_zero (by omega)
    subst hl
    cases g <;> simp [allReplacedF, tryMatch_nil]
  | succ f ih =>
    intro g l hf hg
    cases g with
    | zero =>
      have hl : l = [] := List.eq_nil_of_length_eq_zero (by omega)
      subst hl
      simp [allReplacedF, tryMatch_nil]
    | succ g =>
      rcases htm : tryMatch l with _ | ⟨v, rest⟩
      · cases l with
        | nil => simp [allReplacedF, tryMatch_nil]
        | cons c t =>
          simp only [allReplacedF, htm]
          rw [ih g t (by simp at hf; omega) (by simp at hg; omega)]
      · simp only [allReplacedF, htm]
        have hlen := tryMatch_rest_length htm
        rw [ih g rest (by omega) (by omega)]

theorem allRepl_match {newV l v rest : List Char}
    (h : tryMatch l = some (v, rest)) :
    allReplaced newV l = (v == newV && allReplaced newV rest) := by
  show allReplacedF newV l.length l = _
  have hlen := tryMatch_rest_length h
  obtain ⟨n, hn⟩ : ∃ n, l.length = n + 1 := ⟨l.length - 1, by omega⟩
  rw [hn]
  simp only [allReplacedF, h]
  congr 1
  exact allReplacedF_fuel newV n rest.length rest (by omega) (le_refl _)

theorem allRepl_cons_none {newV : List Char} {c : Char} {t : List Char}
    (h : tryMatch (c :: t) = none) :
    allReplaced newV (c :: t) = allReplaced newV t := by
  show allReplacedF newV (c :: t).length (c :: t) = _
  rw [show (c :: t).length = t.length + 1 from rfl]
  simp only [allReplacedF, h]
  rfl

/-! ### Structure of the substituted text -/

theorem reSub_copy_nonv (newV : List Char) :
    ∀ pre y, (∀ ch ∈ pre, ch ≠ 'v') →
      reSubVersion newV (pre ++ y) = pre ++ reSubVersion newV y := by
  intro pre
  induction pre with
  | nil => intro y _; simp
  | cons c t ih =>
    intro y hpre
    have hc : c ≠ 'v' := hpre c (by simp)
    rw [List.cons_append, reSub_cons_none (tryMatch_cons_ne_v hc),
      ih y (fun x hx => hpre x (by simp [hx]))]
    simp

theorem reSub_head (newV : List Char) {x : Char} {w : List Char} :
    (reSubVersion newV (x :: w)).head? = some x ∨
    (reSubVersion newV (x :: w)).head? = some 'v' := by
  rcases htm : tryMatch (x :: w) with _ | ⟨v, rest⟩
  · left
    rw [reSub_cons_none htm]
    rfl
  · right
    rw [reSub_match htm]
    simp [replChunk, verEqChars]

theorem reSub_take8 (newV : List Char) :
    ∀ n l, l.length ≤ n → (reSubVersion newV l).take 8 = l.take 8 := by
  intro n
  induction n with
  | zero =>
    intro l h
    have hl : l = [] := List.eq_nil_of_length_eq_zero (by omega)
    subst hl
    rfl
  | succ n ih =>
    intro l hl
    rcases htm : tryMatch l with _ | ⟨v, rest⟩
    · cases l with
      | nil => rfl
      | cons c t =>
        rw [reSub_cons_none htm]
        have h8 := ih t (by simp at hl; omega)
        rw [show (8 : Nat) = 7 + 1 from rfl, List.take_succ_cons,
          List.take_succ_cons]
        have h7 : (reSubVersion newV t).take 7 = t.take 7 := by
          have hcon := congrArg (List.take 7) h8
          rwa [List.take_take, List.take_take,
            show min 7 8 = 7 from rfl] at hcon
        rw [h7]
    · rw [reSub_match htm]
      obtain ⟨q, q2, hq, hq2, hvne, hvd, hl2⟩ := tryMatch_some_elim htm
      rw [hl2]
      have h1 : (replChunk newV ++ reSubVersion newV rest).take 8 =
          verEqChars := by
        rw [show replChunk newV ++ reSubVersion newV rest =
            verEqChars ++ ('\'' :: (newV ++ ['\'']) ++
              reSubVersion newV rest) from by simp [replChunk]]
        rw [show (8 : Nat) = verEqChars.length from rfl, List.take_left]
      have h2 : (verEqChars ++ q :: (v ++ q2 :: rest)).take 8 =
          verEqChars := by
        rw [show (8 : Nat) = verEqChars.length from rfl, List.take_left]
      rw [h1, h2]

theorem headIsQuote_congr {X Y : List Char} (h : X.head? = Y.head?) :
    headIsQuote X = headIsQuote Y := by
  cases X <;> cases Y <;> simp_all [headIsQuote]

theorem assignSiteAt_eq (l : List Char) :
    assignSiteAt l =
      (decide (l.take 8 = verEqChars) && headIsQuote (l.drop 8)) := by
  cases h : l.drop 8 <;> simp [assignSiteAt, headIsQuote, h]

theorem site_preserved (newV : List Char) {c : Char} {t : List Char}
    (n : Nat) (hn : t.length ≤ n) :
    assignSiteAt (c :: reSubVersion newV t) = assignSiteAt (c :: t) := by
  have h8 := reSub_take8 newV n t hn
  have hTake : (c :: reSubVersion newV t).take 8 = (c :: t).take 8 := by
    rw [show (8 : Nat) = 7 + 1 from rfl, List.take_succ_cons,
      List.take_succ_cons]
    have hcon := congrArg (List.take 7) h8
    rw [List.take_take, List.take_take, show min 7 8 = 7 from rfl] at hcon
    rw [hcon]
  have hDrop : headIsQuote ((c :: reSubVersion newV t).drop 8) =
      headIsQuote ((c :: t).drop 8) := by
    rw [show (8 : Nat) = 7 + 1 from rfl, List.drop_succ_cons,
      List.drop_succ_cons]
    apply headIsQuote_congr
    rw [List.head?_drop, List.head?_drop]
    have hcon := congrArg (fun x : List Char => x[7]?) h8
    simpa [List.getElem?_take] using hcon
  rw [assignSiteAt_eq, assignSiteAt_eq, hTake, hDrop]

/-! ### C2: a failed match position stays failed after substitution -/

theorem tryMatch_none_of_nosite {l : List Char}
    (h : assignSiteAt l = false) : tryMatch l = none := by
  unfold tryMatch
  rw [if_neg]
  intro hcond
  simp only [Bool.and_eq_true] at hcond
  obtain ⟨⟨⟨h8, hq⟩, _⟩, _⟩ := hcond
  rw [assignSiteAt_eq, h8, hq] at h
  simp at h

theorem tryMatch_verEq_none_elim {q : Char} {u : List Char}
    (hq : isQuoteCh q = true)
    (h : tryMatch (verEqChars ++ q :: u) = none) :
    u.takeWhile isDigitDot = [] ∨
      headIsQuote (u.dropWhile isDigitDot) = false := by
  have h8 : (verEqChars ++ q :: u).take 8 = verEqChars := by
    rw [show (8 : Nat) = verEqChars.length from rfl, List.take_left]
  have hd8 : (verEqChars ++ q :: u).drop 8 = q :: u := by
    rw [show (8 : Nat) = verEqChars.length from rfl, List.drop_left]
  have hd9 : (verEqChars ++ q :: u).drop 9 = u := by
    have h99 : (verEqChars ++ q :: u).drop 9 =
        ((verEqChars ++ q :: u).drop 8).drop 1 := (List.drop_drop 1 8 _).symm
    rw [h99, hd8]
    rfl
  unfold tryMatch at h
  rw [h8, hd8, hd9] at h
  by_cases hrun : u.takeWhile isDigitDot = []
  · exact Or.inl hrun
  · right
    by_cases hcl : headIsQuote (u.dropWhile isDigitDot) = true
    · exfalso
      have hq2c : headIsQuote (q :: u) = true := by simp [headIsQuote, hq]
      have hie : (List.takeWhile isDigitDot u).isEmpty = false := by
        rcases he : List.takeWhile isDigitDot u with _ | _
        · exact absurd he hrun
        · rfl
      rw [if_pos] at h
      · simp at h
      · simp [hq2c, hie, hcl]
    · simpa using hcl

theorem tryMatch_verEq_none_intro {q : Char} {Y : List Char}
    (h : Y.takeWhile isDigitDot = [] ∨
      headIsQuote (Y.dropWhile isDigitDot) = false) :
    tryMatch (verEqChars ++ q :: Y) = none := by
  have hd9 : (verEqChars ++ q :: Y).drop 9 = Y := by
    have hd8 : (verEqChars ++ q :: Y).drop 8 = q :: Y := by
      rw [show (8 : Nat) = verEqChars.length from rfl, List.drop_left]
    have h99 : (verEqChars ++ q :: Y).drop 9 =
        ((verEqChars ++ q :: Y).drop 8).drop 1 := (List.drop_drop 1 8 _).symm
    rw [h99, hd8]
    rfl
  unfold tryMatch
  rw [if_neg]
  intro hcond
  rw [hd9] at hcond
  simp only [Bool.and_eq_true] at hcond
  obtain ⟨⟨_, hrun⟩, hcl⟩ := hcond
  rcases h with h | h
  · rw [h] at hrun
    simp at hrun
  · rw [h] at hcl
    simp at hcl

theorem tryMatch_none_reSub (newV : List Char) {c : Char} {t : List Char}
    (n : Nat) (hn : t.length ≤ n) (h : tryMatch (c :: t) = none) :
    tryMatch (c :: reSubVersion newV t) = none := by
  rcases hsite : assignSiteAt (c :: t) with _ | _
  · exact tryMatch_none_of_nosite (by rw [site_preserved newV n hn]; exact hsite)
  · rw [assignSiteAt_eq] at hsite
    simp only [Bool.and_eq_true, decide_eq_true_eq] at hsite
    obtain ⟨h8, hq8⟩ := hsite
    rcases hd : (c :: t).drop 8 with _ | ⟨q, u⟩
    · rw [hd] at hq8
      simp [headIsQuote] at hq8
    rw [hd] at hq8
    have hqq : isQuoteCh q = true := by simpa [headIsQuote] using hq8
    have hct : c :: t = verEqChars ++ q :: u := by
      conv_lhs => rw [← List.take_append_drop 8 (c :: t)]
      rw [h8, hd]
    have hct2 : c :: t = 'v' :: (['e', 'r', 's', 'i', 'o', 'n', '=', q] ++ u) := by
      rw [hct]
      simp [verEqChars]
    have hpair : c = 'v' ∧ t = ['e', 'r', 's', 'i', 'o', 'n', '=', q] ++ u := by
      have h2 := hct2
      simp only [List.cons.injEq] at h2
      exact h2
    obtain ⟨hcv, htdecomp⟩ := hpair
    have hresub : reSubVersion newV t =
        ['e', 'r', 's', 'i', 'o', 'n', '=', q] ++ reSubVersion newV u := by
      rw [htdecomp]
      apply reSub_copy_nonv
      intro ch hch
      simp at hch
      rcases hch with rfl | rfl | rfl | rfl | rfl | rfl | rfl | rfl
      · decide
      · decide
      · decide
      · decide
      · decide
      · decide
      · decide
      · exact quote_ne_v hqq
    have hgoal_form : c :: reSubVersion newV t =
        verEqChars ++ q :: reSubVersion newV u := by
      rw [hresub, hcv]
      simp [verEqChars]
    rw [hgoal_form]
    have hdisj : u.takeWhile isDigitDot = [] ∨
        headIsQuote (u.dropWhile isDigitDot) = false := by
      rw [hct] at h
      exact tryMatch_verEq_none_elim hqq h
    apply tryMatch_verEq_none_intro
    rcases hdisj with hrun | hclose
    · cases hu : u with
      | nil =>
        left
        rw [reSub_nil]
        rfl
      | cons x w =>
        rw [hu] at hrun
        have hx : isDigitDot x = false := by
          rcases hb : isDigitDot x with _ | _
          · rfl
          · rw [List.takeWhile_cons, hb] at hrun
            simp at hrun
        left
        rcases hres : reSubVersion newV (x :: w) with _ | ⟨h1, t1⟩
        · simp
        · have hh := reSub_head newV (x := x) (w := w)
          rw [hres] at hh
          simp at hh
          have h1nd : isDigitDot h1 = false := by
            rcases hh with rfl | rfl
            · exact hx
            · decide
          simp [List.takeWhile_cons, h1nd]
    · rcases haft : u.dropWhile isDigitDot with _ | ⟨x, w⟩
      · have hud : ∀ ch ∈ u, isDigitDot ch = true :=
          List.dropWhile_eq_nil_iff.mp haft
        have hres : reSubVersion newV u = u := by
          have hcp := reSub_copy_nonv newV u []
            (fun ch hch => digitdot_ne_v (hud ch hch))
          simpa [reSub_nil] using hcp
        right
        rw [hres, haft]
        rfl
      · have h0 : 0 < (u.dropWhile isDigitDot).length := by
          rw [haft]
          simp
        have hx_nd : isDigitDot x = false := by
          have hz := List.dropWhile_get_zero_not (p := isDigitDot) u h0
          simp [haft] at hz
          exact hz
        have hx_nq : isQuoteCh x = false := by
          rw [haft] at hclose
          simpa [headIsQuote] using hclose
        have hds : ∀ ch ∈ u.takeWhile isDigitDot, isDigitDot ch = true :=
          fun ch hch => List.mem_takeWhile_imp hch
        have hu_decomp : u = u.takeWhile isDigitDot ++ x :: w := by
          conv_lhs => rw [← List.takeWhile_append_dropWhile isDigitDot u]
          rw [haft]
        have hres : reSubVersion newV u =
            u.takeWhile isDigitDot ++ reSubVersion newV (x :: w) := by
          conv_lhs => rw [hu_decomp]
          exact reSub_copy_nonv newV _ _
            (fun ch hch => digitdot_ne_v (hds ch hch))
        rcases hres2 : reSubVersion newV (x :: w) with _ | ⟨h1, t1⟩
        · exfalso
          have hh := reSub_head newV (x := x) (w := w)
          rw [hres2] at hh
          simp at hh
        · have hh := reSub_head newV (x := x) (w := w)
          rw [hres2] at hh
          simp at hh
          have h1nd : isDigitDot h1 = false := by
            rcases hh with rfl | rfl
            · exact hx_nd
            · decide
          have h1nq : isQuoteCh h1 = false := by
            rcases hh with rfl | rfl
            · exact hx_nq
            · decide
          right
          rw [hres, hres2]
          have hta := takeWhile_append_all (p := isDigitDot)
            (u.takeWhile isDigitDot) (h1 :: t1) hds
          rw [hta.2]
          simp [List.dropWhile_cons, h1nd, headIsQuote, h1nq]

theorem allReplaced_reSub_aux (newV : List Char) (hne : newV ≠ [])
    (hdd : ∀ c ∈ newV, isDigitDot c = true) :
    ∀ n l, l.length ≤ n →
      allReplaced newV (reSubVersion newV l) = true := by
  intro n
  induction n with
  | zero =>
    intro l hl
    have h0 : l = [] := List.eq_nil_of_length_eq_zero (by omega)
    subst h0
    rfl
  | succ n ih =>
    intro l hl
    rcases htm : tryMatch l with _ | ⟨v, rest⟩
    · cases l with
      | nil => rfl
      | cons c t =>
        rw [reSub_cons_none htm]
        have hnone := tryMatch_none_reSub newV n (by simp at hl; omega) htm
        rw [allRepl_cons_none hnone]
        exact ih t (by simp at hl; omega)
    · rw [reSub_match htm]
      have hrm := tryMatch_repl newV hne hdd (reSubVersion newV rest)
      rw [allRepl_match hrm]
      have hrec := ih rest
        (by have := tryMatch_rest_length htm; omega)
      simp [hrec]

/-- C2 counterexample: with two occurrences of the pattern, `re.sub`
rewrites both; replacing only the first occurrence (the specification's
reading) yields a different result. -/
theorem c2_counterexample_second_occurrence :
    reSubVersion "3.0".toList "version='1.0' version='2.0'".toList =
      "version='3.0' version='3.0'".toList ∧
    reSubVersionFirst "3.0".toList "version='1.0' version='2.0'".toList =
      "version='3.0' version='2.0'".toList ∧
    reSubVersion "3.0".toList "version='1.0' version='2.0'".toList ≠
      reSubVersionFirst "3.0".toList "version='1.0' version='2.0'".toList := by
  refine ⟨by decide, by decide, by decide⟩

/-- C2 (amended): the rewrite replaces every left-to-right non-overlapping
occurrence of the literal pattern `version=['\"]<digits-and-dots>['\"]`,
not only the first: for a new version consisting of digits and dots, after
the rewrite every occurrence of the pattern in the descriptor's text
carries the new version as its value. -/
theorem c2_resub_replaces_all (newV l : List Char) (hne : newV ≠ [])
    (hdd : ∀ c ∈ newV, isDigitDot c = true) :
    allReplaced newV (reSubVersion newV l) = true :=
  allReplaced_reSub_aux newV hne hdd l.length l (le_refl _)

/-- Witness for C2 on the two-occurrence descriptor. -/
theorem c2_resub_replaces_all_witness :
    allReplaced "3.0".toList (reSubVersion "3.0".toList
      "version='1.0' version='2.0'".toList) = true :=
  c2_resub_replaces_all "3.0".toList
    "version='1.0' version='2.0'".toList (by decide) (by decide)

/-! ### C1: the embedded version value after `update_version` -/

theorem extract_cons_site {c : Char} {t : List Char}
    (hs : assignSiteAt (c :: t) = true) :
    extractVersionValue (c :: t) = assignValueAt (c :: t) := by
  simp [extractVersionValue, hs]

theorem extract_cons_nosite {c : Char} {t : List Char}
    (hs : assignSiteAt (c :: t) = false) :
    extractVersionValue (c :: t) = extractVersionValue t := by
  simp [extractVersionValue, hs]

theorem extract_repl (newV : List Char) (hq : ∀ ch ∈ newV, ch ≠ '\'')
    (X : List Char) :
    extractVersionValue (replChunk newV ++ X) = some newV := by
  have hform : replChunk newV ++ X =
      'v' :: (['e', 'r', 's', 'i', 'o', 'n', '='] ++
        '\'' :: (newV ++ '\'' :: X)) := by
    simp [replChunk, verEqChars]
  rw [hform]
  have hsite : assignSiteAt ('v' :: (['e', 'r', 's', 'i', 'o', 'n', '='] ++
      '\'' :: (newV ++ '\'' :: X))) = true := by
    rw [assignSiteAt_eq]
    simp [verEqChars, headIsQuote, isQuoteCh]
  rw [extract_cons_site hsite]
  unfold assignValueAt
  have hd8 : ('v' :: (['e', 'r', 's', 'i', 'o', 'n', '='] ++
      '\'' :: (newV ++ '\'' :: X))).drop 8 = '\'' :: (newV ++ '\'' :: X) := by
    simp
  rw [hd8]
  have htw := takeWhile_stop (p := fun ch => decide (ch ≠ '\'')) newV X '\''
    (fun ch hch => by simp [hq ch hch]) (by decide)
  dsimp only
  rw [htw.1, htw.2]
  simp

theorem extract_reSub (newV : List Char) (hq : ∀ ch ∈ newV, ch ≠ '\'') :
    ∀ n l w, l.length ≤ n → extractVersionValue l = some w → w ≠ [] →
      (∀ c ∈ w, isDigitDot c = true) →
      extractVersionValue (reSubVersion newV l) = some newV := by
  intro n
  induction n with
  | zero =>
    intro l w hl hw _ _
    have h0 : l = [] := List.eq_nil_of_length_eq_zero (by omega)
    subst h0
    simp [extractVersionValue] at hw
  | succ n ih =>
    intro l w hl hw hwne hwdd
    rcases htm : tryMatch l with _ | ⟨v, rest⟩
    · cases l with
      | nil => simp [extractVersionValue] at hw
      | cons c t =>
        rcases hsite : assignSiteAt (c :: t) with _ | _
        · rw [reSub_cons_none htm]
          rw [extract_cons_nosite
            (by rw [site_preserved newV n (by simp at hl; omega)]; exact hsite)]
          rw [extract_cons_nosite hsite] at hw
          exact ih t w (by simp at hl; omega) hw hwne hwdd
        · exfalso
          rw [extract_cons_site hsite] at hw
          rw [assignSiteAt_eq] at hsite
          simp only [Bool.and_eq_true, decide_eq_true_eq] at hsite
          obtain ⟨h8, hq8⟩ := hsite
          rcases hd : (c :: t).drop 8 with _ | ⟨q, t2⟩
          · rw [hd] at hq8
            simp [headIsQuote] at hq8
          rw [hd] at hq8
          have hqq : isQuoteCh q = true := by simpa [headIsQuote] using hq8
          unfold assignValueAt at hw
          rw [hd] at hw
          dsimp only at hw
          split at hw
          case isFalse => simp at hw
          rename_i hclosed
          simp only [Option.some.injEq] at hw
          rcases hdw : t2.dropWhile (fun x => decide (x ≠ q)) with _ | ⟨d, ds⟩
          · rw [hdw] at hclosed
            exact hclosed rfl
          · have hd' : d = q := by
              have h0 : 0 < (t2.dropWhile (fun x => decide (x ≠ q))).length := by
                rw [hdw]
                simp
              have hz := List.dropWhile_get_zero_not
                (p := fun x => decide (x ≠ q)) t2 h0
              have hdw2 : t2.dropWhile (fun x => !decide (x = q)) = d :: ds := by
                simpa using hdw
              simp [hdw2] at hz
              exact hz
            subst hd'
            have ht2 : t2 = w ++ d :: ds := by
              conv_lhs => rw [← List.takeWhile_append_dropWhile
                (fun x => decide (x ≠ d)) t2]
              rw [hw, hdw]
            have hl2 : c :: t = verEqChars ++ d :: (w ++ d :: ds) := by
              conv_lhs => rw [← List.take_append_drop 8 (c :: t)]
              rw [h8, hd, ht2]
            have hbuild := tryMatch_build d d w ds hqq hqq hwne hwdd
            rw [hl2] at htm
            exact Option.noConfusion (hbuild.symm.trans htm)
    · rw [reSub_match htm]
      exact extract_repl newV hq _

/-! Characters of an accepted version string. -/

theorem parseTagEnd_chars :
    ∀ l, parseTagEnd l = true → ∀ c ∈ l, isAlnumDot c = true := by
  intro l hl c hc
  cases l with
  | nil => simp at hc
  | cons x r =>
    simp only [parseTagEnd] at hl
    by_cases hx : x = '.'
    · rw [if_pos hx] at hl
      simp only [Bool.and_eq_true, decide_eq_true_eq] at hl
      rcases List.mem_cons.mp hc with rfl | hcr
      · simp [isAlnumDot, hx]
      · have hcc := List.all_eq_true.mp hl.2 c hcr
        simp [isAlnumDot, hcc]
    · rw [if_neg hx] at hl
      have hcc := List.all_eq_true.mp hl c hc
      simp [isAlnumDot, hcc]

theorem parseGroupsEnd_chars :
    ∀ n l, parseGroupsEnd n l = true → ∀ c ∈ l, isAlnumDot c = true := by
  intro n
  induction n with
  | zero =>
    intro l hl c hc
    cases l with
    | nil => simp at hc
    | cons x r => exact parseTagEnd_chars (x :: r) hl c hc
  | succ n ih =>
    intro l hl c hc
    cases l with
    | nil => simp at hc
    | cons x r =>
      simp only [parseGroupsEnd] at hl
      split at hl
      · rename_i hcond
        obtain ⟨hx, _⟩ := hcond
        rcases List.mem_cons.mp hc with rfl | hcr
        · simp [isAlnumDot, hx]
        · rw [← List.takeWhile_append_dropWhile Char.isDigit r] at hcr
          rcases List.mem_append.mp hcr with hmem | hmem
          · have hdig := List.mem_takeWhile_imp hmem
            simp [isAlnumDot, digit_alnum hdig]
          · exact ih _ hl c hmem
      · exact parseTagEnd_chars (x :: r) hl c hc

theorem shapeMatch_chars {l : List Char} (h : shapeMatch l = true) :
    ∀ c ∈ l, isAlnumDot c = true := by
  intro c hc
  simp only [shapeMatch, Bool.and_eq_true] at h
  obtain ⟨_, h2⟩ := h
  rw [← List.takeWhile_append_dropWhile Char.isDigit l] at hc
  rcases List.mem_append.mp hc with hmem | hmem
  · have hdig := List.mem_takeWhile_imp hmem
    simp [isAlnumDot, digit_alnum hdig]
  · exact parseGroupsEnd_chars 2 _ h2 c hmem

theorem alnumdot_no_quote {c : Char} (h : isAlnumDot c = true) : c ≠ '\'' := by
  intro he
  subst he
  exact absurd h (by decide)

/-- C1 counterexample: the descriptor `version='0.1a'` holds a version value
that is not digits-and-dots, so the pattern never matches, the rewrite is a
silent no-op, and after `update_version` accepts `1.2.4` the descriptor's
embedded value is still `0.1a`, not the accepted string. -/
theorem c1_counterexample_nonnumeric_descriptor :
    update_version parseAlways ["1.2.4".toList] "1.2.3".toList
      "version='0.1a'".toList =
      (some "1.2.4".toList, "1.2.4".toList, "version='0.1a'".toList) ∧
    extractVersionValue "version='0.1a'".toList = some "0.1a".toList ∧
    "0.1a".toList ≠ "1.2.4".toList := by
  refine ⟨by decide, by decide, by decide⟩

/-- C1 (amended): for every version string accepted by the two validation
checks, if the first `version='...'` assignment in the descriptor carries a
non-empty digits-and-dots value (so that the substitution pattern matches
it), then after `update_version` returns, the marker file's contents and
the value of the descriptor's first version assignment both equal the
accepted string. -/
theorem c1_update_version (parseOk : List Char → Bool) (w : List Char) :
    ∀ inputs m s, extractVersionValue s = some w → w ≠ [] →
      (∀ c ∈ w, isDigitDot c = true) →
      ∀ v m2 s2, update_version parseOk inputs m s = (some v, m2, s2) →
        m2 = v ∧ extractVersionValue s2 = some v := by
  intro inputs
  induction inputs with
  | nil =>
    intro m s _ _ _ v m2 s2 h
    simp [update_version] at h
  | cons i rest ih =>
    intro m s hw hwne hwdd v m2 s2 h
    by_cases hacc : (shapeMatch i && parseOk i) = true
    · simp only [update_version, hacc, if_pos] at h
      simp only [Prod.mk.injEq, Option.some.injEq] at h
      obtain ⟨hv, hm2, hs2⟩ := h
      subst hv
      refine ⟨hm2.symm, ?_⟩
      rw [← hs2]
      have hshape : shapeMatch i = true := by
        rcases Bool.and_eq_true .. |>.mp hacc with ⟨h1, _⟩
        exact h1
      have hnq : ∀ ch ∈ i, ch ≠ '\'' :=
        fun ch hch => alnumdot_no_quote (shapeMatch_chars hshape ch hch)
      exact extract_reSub i hnq s.length s w (le_refl _) hw hwne hwdd
    · simp only [update_version, hacc, Bool.false_eq_true, if_false,
        if_neg] at h
      exact ih m s hw hwne hwdd v m2 s2 h

/-- Witness for C1 on a well-formed descriptor. -/
theorem c1_update_version_witness :
    extractVersionValue (update_version parseAlways ["1.2.4".toList]
      "1.2.3".toList "setup(version='1.2.3')".toList).2.2 =
      some "1.2.4".toList := by
  have hupd : update_version parseAlways ["1.2.4".toList] "1.2.3".toList
      "setup(version='1.2.3')".toList =
      (some "1.2.4".toList, "1.2.4".toList,
        "setup(version='1.2.4')".toList) := by decide
  rw [hupd]
  exact (c1_update_version parseAlways "1.2.3".toList ["1.2.4".toList]
    "1.2.3".toList "setup(version='1.2.3')".toList (by decide) (by decide)
    (by decide) "1.2.4".toList "1.2.4".toList
    "setup(version='1.2.4')".toList hupd).2

end UpdatePackage
